import Mathlib

/-!
Shallow embedding of the confidential order-matching engine in
`src/Backend/darkPool/encrypted-ixs/match_orders.rs`, together with proofs
of the specification claims about it.

Machine integers (`u64`, `u128`, `u8`) are modelled as `Nat`; `u64`
arithmetic (the only arithmetic performed by the code) is made explicit
through wrapping helpers `add64`/`sub64` (mod `2^64`).  The fixed-size
array `[Order; MAX_ORDERS]` is modelled as a total function
`Fin MAX_ORDERS → Order`, and each unconditional `for` loop of the source
becomes a `List.foldl` over `List.finRange MAX_ORDERS` (or over the
row-major pair list for the matching engine's double loop).
-/

namespace DarkPool

/-- `MAX_ORDERS` from the source: the fixed capacity of the order book. -/
abbrev MAX_ORDERS : Nat := 100

/-- The modulus of unsigned 64-bit arithmetic. -/
def U64 : Nat := 2 ^ 64

/-- Wrapping unsigned 64-bit addition. -/
def add64 (a b : Nat) : Nat := (a + b) % U64

/-- Wrapping unsigned 64-bit subtraction (for a subtrahend below `2^64`). -/
def sub64 (a b : Nat) : Nat := (a + U64 - b) % U64

/-- `Order` from the source.  `side`: 0 = buy, 1 = sell; `order_type`:
0 = market, 1 = limit; `active`: 0 = inactive, 1 = active (all `u8` in the
source); `user_id` is `u128`; `price` and `amount` are `u64`. -/
structure Order where
  price : Nat
  amount : Nat
  side : Nat
  order_type : Nat
  user_id : Nat
  active : Nat
deriving DecidableEq

/-- `OrderBook` from the source: `orders: [Order; MAX_ORDERS]` plus a `u64`
`order_count`. -/
structure OrderBook where
  orders : Fin MAX_ORDERS → Order
  order_count : Nat

/-- `MatchResult` from the source (`matched` is `u8`, the rest `u64`). -/
structure MatchResult where
  matched : Nat
  match_price : Nat
  match_amount : Nat
  buy_order_id : Nat
  sell_order_id : Nat
deriving DecidableEq

/-- One iteration of the insertion loop of `add_order` (source lines 45-54):
state is the current slot array together with the `added` flag. -/
def addStep (order : Order) (s : (Fin MAX_ORDERS → Order) × Nat) (i : Fin MAX_ORDERS) :
    (Fin MAX_ORDERS → Order) × Nat :=
  let is_empty := (s.1 i).active == 0
  let should_add := is_empty && s.2 == 0
  if should_add then
    (Function.update s.1 i ⟨order.price, order.amount, order.side, order.order_type,
      order.user_id, 1⟩, 1)
  else s

/-- `add_order` from the source: scan every slot, write the candidate (with
`active` forced to 1) into the first inactive slot, then add the increment
(1 if an insertion happened, else 0) to `order_count` with `u64` addition. -/
def add_order (order : Order) (ob : OrderBook) : OrderBook :=
  let s := (List.finRange MAX_ORDERS).foldl (addStep order) (ob.orders, 0)
  let count_increment : Nat := if s.2 == 1 then 1 else 0
  { orders := s.1, order_count := add64 ob.order_count count_increment }

/-- The all-zero `MatchResult` that `match_orders` starts from
(source lines 70-76). -/
def defaultMatchResult : MatchResult := ⟨0, 0, 0, 0, 0⟩

/-- The eligibility test of the matching loop (source lines 85-99, without
the `result.matched == 0` conjunct, which belongs to the loop state):
slot `i` is a buy, slot `j` is a sell, both are active, owners differ, and
prices are compatible (a market order on either side always matches,
otherwise buy price ≥ sell price). -/
def eligible (ob : OrderBook) (i j : Fin MAX_ORDERS) : Bool :=
  let buy_order := ob.orders i
  let sell_order := ob.orders j
  let is_buy := buy_order.side == 0
  let is_sell := sell_order.side == 1
  let both_active := buy_order.active == 1 && sell_order.active == 1
  let not_same_user := buy_order.user_id != sell_order.user_id
  let price_match : Nat :=
    if buy_order.order_type == 0 || sell_order.order_type == 0 then 1
    else if buy_order.price ≥ sell_order.price then 1 else 0
  is_buy && is_sell && both_active && not_same_user && (price_match == 1)

/-- The `MatchResult` built when the pair `(i, j)` is committed
(source lines 101-123): price is the sell price if the buy side is market,
else the buy price if the sell side is market, else the wrapped sum of the
two prices halved; amount is the minimum of the two amounts. -/
def commitResult (ob : OrderBook) (i j : Fin MAX_ORDERS) : MatchResult :=
  let buy_order := ob.orders i
  let sell_order := ob.orders j
  let match_price :=
    if buy_order.order_type == 0 then sell_order.price
    else if sell_order.order_type == 0 then buy_order.price
    else add64 buy_order.price sell_order.price / 2
  let match_amount :=
    if buy_order.amount < sell_order.amount then buy_order.amount
    else sell_order.amount
  ⟨1, match_price, match_amount, (i : Nat), (j : Nat)⟩

/-- The book update performed when the pair `(i, j)` is committed
(source lines 125-135): both slots' amounts are reduced by the match
amount (`u64` subtraction), then any slot whose amount reached 0 is
deactivated, in source order. -/
def commitBook (ob : OrderBook) (i j : Fin MAX_ORDERS) : OrderBook :=
  let match_amount := (commitResult ob i j).match_amount
  let upd : Order → Nat → Order := fun o a =>
    ⟨o.price, a, o.side, o.order_type, o.user_id, o.active⟩
  let deact : Order → Order := fun o =>
    ⟨o.price, o.amount, o.side, o.order_type, o.user_id, 0⟩
  let o1 := Function.update ob.orders i (upd (ob.orders i) (sub64 (ob.orders i).amount match_amount))
  let o2 := Function.update o1 j (upd (o1 j) (sub64 (o1 j).amount match_amount))
  let o3 := if (o2 i).amount == 0 then Function.update o2 i (deact (o2 i)) else o2
  let o4 := if (o3 j).amount == 0 then Function.update o3 j (deact (o3 j)) else o3
  { orders := o4, order_count := ob.order_count }

/-- One iteration of the double matching loop (source lines 79-137): the
pair is committed exactly when it is eligible and no pair has been
committed earlier in this invocation (`result.matched == 0`). -/
def matchStep (s : OrderBook × MatchResult) (p : Fin MAX_ORDERS × Fin MAX_ORDERS) :
    OrderBook × MatchResult :=
  if eligible s.1 p.1 p.2 && s.2.matched == 0 then
    (commitBook s.1 p.1 p.2, commitResult s.1 p.1 p.2)
  else s

/-- The row-major enumeration of all slot pairs `(i, j)` traversed by the
nested loops of `match_orders` (`i` outer, `j` inner). -/
def pairList : List (Fin MAX_ORDERS × Fin MAX_ORDERS) :=
  (List.finRange MAX_ORDERS).flatMap fun i => (List.finRange MAX_ORDERS).map fun j => (i, j)

/-- `match_orders` from the source: fold the matching step over every slot
pair in row-major order, starting from the input book and the all-zero
result. -/
def match_orders (ob : OrderBook) : OrderBook × MatchResult :=
  pairList.foldl matchStep (ob, defaultMatchResult)

/-- The first pair satisfying `eligible`, in row-major order. -/
def firstEligible (ob : OrderBook) : Option (Fin MAX_ORDERS × Fin MAX_ORDERS) :=
  pairList.find? fun p => eligible ob p.1 p.2

/-- The lowest-index inactive slot, the one `add_order` fills. -/
def firstFree (ob : OrderBook) : Option (Fin MAX_ORDERS) :=
  (List.finRange MAX_ORDERS).find? fun i => (ob.orders i).active == 0

/-- One iteration of the cancellation loop of `cancel_order`
(source lines 157-168): deactivate slot `i` and decrement `order_count`
(`u64` subtraction) exactly when `i` is the target index and the slot is
active and owned by the caller. -/
def cancelStep (order_id user : Nat) (b : OrderBook) (i : Fin MAX_ORDERS) : OrderBook :=
  let is_target_order := (i : Nat) == order_id
  let is_owner := (b.orders i).user_id == user
  let is_active := (b.orders i).active == 1
  let should_cancel := is_target_order && is_owner && is_active
  if should_cancel then
    { orders := Function.update b.orders i
        ⟨(b.orders i).price, (b.orders i).amount, (b.orders i).side,
         (b.orders i).order_type, (b.orders i).user_id, 0⟩,
      order_count := sub64 b.order_count 1 }
  else b

/-- `cancel_order` from the source: scan every slot with `cancelStep`. -/
def cancel_order (order_id user : Nat) (ob : OrderBook) : OrderBook :=
  (List.finRange MAX_ORDERS).foldl (cancelStep order_id user) ob

/-- The inner loop of the buy half of `get_orderbook_depth`
(source lines 184-193): accumulate, with `u64` addition, the amount of
every active buy slot. -/
def level_volume_buy (ob : OrderBook) : Nat :=
  (List.finRange MAX_ORDERS).foldl
    (fun v j =>
      if (ob.orders j).side == 0 && (ob.orders j).active == 1 then add64 v (ob.orders j).amount
      else v) 0

/-- The inner loop of the sell half of `get_orderbook_depth`
(source lines 199-208). -/
def level_volume_sell (ob : OrderBook) : Nat :=
  (List.finRange MAX_ORDERS).foldl
    (fun v j =>
      if (ob.orders j).side == 1 && (ob.orders j).active == 1 then add64 v (ob.orders j).amount
      else v) 0

/-- `get_orderbook_depth` from the source: a 20-entry array whose entries
0-9 are each set (by the first outer loop) to the buy-side volume and whose
entries 10-19 are each set (by the second outer loop) to the sell-side
volume; each outer iteration recomputes the same inner sum, so entry `i`
holds the buy volume when `i < 10` and the sell volume otherwise.  The
`price_levels` argument is accepted but never read. -/
def get_orderbook_depth (ob : OrderBook) (price_levels : Nat) : Fin 20 → Nat :=
  fun i => if (i : Nat) < 10 then level_volume_buy ob else level_volume_sell ob

/-- Strict row-major (lexicographic) order on slot pairs. -/
def pairLex (p q : Fin MAX_ORDERS × Fin MAX_ORDERS) : Prop :=
  p.1 < q.1 ∨ (p.1 = q.1 ∧ p.2 < q.2)

/-- The set of active slots of a slot array. -/
def activeSlots (f : Fin MAX_ORDERS → Order) : Finset (Fin MAX_ORDERS) :=
  Finset.univ.filter fun i => (f i).active = 1

/-- The number of active slots of a book. -/
def activeCount (ob : OrderBook) : Nat := (activeSlots ob.orders).card

/-- The all-zero (inactive) order slot. -/
def zeroOrder : Order := ⟨0, 0, 0, 0, 0, 0⟩

/-- The empty book: every slot inactive, counter 0. -/
def initialBook : OrderBook := ⟨fun _ => zeroOrder, 0⟩

/-- States reachable from an empty book (every slot inactive, counter 0) by
any sequence of the three book-updating instructions. -/
inductive Reachable : OrderBook → Prop where
  | init : ∀ ob : OrderBook, (∀ i, (ob.orders i).active = 0) → ob.order_count = 0 →
      Reachable ob
  | step_add : ∀ (o : Order) (ob : OrderBook), Reachable ob → Reachable (add_order o ob)
  | step_match : ∀ ob : OrderBook, Reachable ob → Reachable (match_orders ob).1
  | step_cancel : ∀ (order_id user : Nat) (ob : OrderBook), Reachable ob →
      Reachable (cancel_order order_id user ob)

/-- States reachable in exactly `n` instruction invocations. -/
inductive ReachableIn : Nat → OrderBook → Prop where
  | init : ∀ ob : OrderBook, (∀ i, (ob.orders i).active = 0) → ob.order_count = 0 →
      ReachableIn 0 ob
  | step_add : ∀ (n : Nat) (o : Order) (ob : OrderBook), ReachableIn n ob →
      ReachableIn (n + 1) (add_order o ob)
  | step_match : ∀ (n : Nat) (ob : OrderBook), ReachableIn n ob →
      ReachableIn (n + 1) (match_orders ob).1
  | step_cancel : ∀ (n : Nat) (order_id user : Nat) (ob : OrderBook), ReachableIn n ob →
      ReachableIn (n + 1) (cancel_order order_id user ob)

/-! ### Concrete books used by the witnesses and counterexamples -/

/-- Two crossing limit orders: slot 0 Buy(limit, price 104, amount 10,
owner 1), slot 1 Sell(limit, price 100, amount 10, owner 2). -/
def wBook : OrderBook :=
  ⟨fun i => if i = 0 then ⟨104, 10, 0, 1, 1, 1⟩
    else if i = 1 then ⟨100, 10, 1, 1, 2, 1⟩ else zeroOrder, 2⟩

/-- A single active order at slot 0, owned by user 7. -/
def cBook : OrderBook := ⟨fun i => if i = 0 then ⟨50, 5, 0, 1, 7, 1⟩ else zeroOrder, 1⟩

/-- Three active buy orders with amounts 10, 20 and 30 and no sell orders. -/
def dBook : OrderBook :=
  ⟨fun i => if i = 0 then ⟨1, 10, 0, 1, 1, 1⟩
    else if i = 1 then ⟨2, 20, 0, 1, 2, 1⟩
    else if i = 5 then ⟨3, 30, 0, 1, 3, 1⟩ else zeroOrder, 3⟩

/-- Two crossing limit orders whose prices sum to `2^64`: the committed
match price is computed after a wrapping `u64` addition. -/
def cexBook : OrderBook :=
  ⟨fun i => if i = 0 then ⟨2 ^ 63, 1, 0, 1, 1, 1⟩
    else if i = 1 then ⟨2 ^ 63, 1, 1, 1, 2, 1⟩ else zeroOrder, 2⟩

/-! ### The drift scenario driving the counter past `2^64` -/

/-- A buy order at price 0 (never crossable with the sell orders below),
owned by user 1. -/
def orderA : Order := ⟨0, 1, 0, 1, 1, 0⟩

/-- A buy limit order at price 5 for one unit, owned by user 2. -/
def orderB : Order := ⟨5, 1, 0, 1, 2, 0⟩

/-- A sell limit order at price 5 for one unit, owned by user 3. -/
def orderC : Order := ⟨5, 1, 1, 1, 3, 0⟩

/-- A further buy order, owned by user 4. -/
def orderD : Order := ⟨0, 1, 0, 1, 4, 0⟩

/-- `orderB` as stored by `add_order` (active). -/
def activeB : Order := ⟨5, 1, 0, 1, 2, 1⟩

/-- `orderC` as stored by `add_order` (active). -/
def activeC : Order := ⟨5, 1, 1, 1, 3, 1⟩

/-- `orderB` after being fully matched: amount 0, inactive. -/
def spentB : Order := ⟨5, 0, 0, 1, 2, 0⟩

/-- `orderC` after being fully matched: amount 0, inactive. -/
def spentC : Order := ⟨5, 0, 1, 1, 3, 0⟩

/-- The slot array after inserting `orderA` into the empty book. -/
def L0 : Fin MAX_ORDERS → Order := Function.update initialBook.orders 0 ⟨0, 1, 0, 1, 1, 1⟩

/-- The slot array after a full add-add-match block: slot 0 holds the live
`orderA`, slots 1 and 2 hold the spent pair. -/
def Linf : Fin MAX_ORDERS → Order :=
  Function.update (Function.update L0 1 spentB) 2 spentC

/-- The slot array after re-inserting `orderB` into the steady state. -/
def M1 : Fin MAX_ORDERS → Order := Function.update Linf 1 activeB

/-- The slot array after re-inserting `orderB` and `orderC` into the steady
state. -/
def M2 : Fin MAX_ORDERS → Order := Function.update M1 2 activeC

/-- The slot array after inserting `orderB` into the one-order book. -/
def S1 : Fin MAX_ORDERS → Order := Function.update L0 1 activeB

/-- The slot array after inserting `orderB` and `orderC` into the one-order
book. -/
def S2 : Fin MAX_ORDERS → Order := Function.update S1 2 activeC

/-- The output (book and result) of the `k + 1`-st add-add-match block,
starting from the one-order book: each block inserts the crossable pair
`orderB`/`orderC` and runs the matching engine on the result. -/
def afterBlocksPair : Nat → OrderBook × MatchResult
  | 0 => match_orders (add_order orderC (add_order orderB ⟨L0, 1⟩))
  | k + 1 => match_orders (add_order orderC (add_order orderB (afterBlocksPair k).1))

/-! ### Generic list lemmas used by the loop characterisations -/

/-- A fold stays at `s` when every element of the list fixes `s`. -/
theorem foldl_fix {α σ : Type _} {f : σ → α → σ} {s : σ} :
    ∀ {l : List α}, (∀ a ∈ l, f s a = s) → l.foldl f s = s
  | [], _ => rfl
  | a :: l, h => by
    rw [List.foldl_cons, h a (List.mem_cons_self a l)]
    exact foldl_fix fun b hb => h b (List.mem_cons_of_mem _ hb)

/-- A fold is the identity when every element acts as the identity on every
state. -/
theorem foldl_id {α σ : Type _} {f : σ → α → σ} {l : List α}
    (h : ∀ a ∈ l, ∀ s, f s a = s) (s : σ) : l.foldl f s = s :=
  foldl_fix fun a ha => h a ha s

/-- Folding over `l₁ ++ k :: l₂` is a single application of `f` at `k` when
every other element acts as the identity on every state. -/
theorem foldl_single {α σ : Type _} {f : σ → α → σ} {l₁ l₂ : List α} {k : α}
    (h₁ : ∀ a ∈ l₁, ∀ s, f s a = s) (h₂ : ∀ a ∈ l₂, ∀ s, f s a = s) (s : σ) :
    (l₁ ++ k :: l₂).foldl f s = f s k := by
  rw [List.foldl_append, foldl_id h₁, List.foldl_cons, foldl_id h₂]

/-- A duplicate-free list splits around any member, with the member absent
from both remainders. -/
theorem split_of_nodup {α : Type _} {l : List α} {k : α} (hmem : k ∈ l)
    (hnd : l.Nodup) :
    ∃ l₁ l₂, l = l₁ ++ k :: l₂ ∧ (∀ a ∈ l₁, a ≠ k) ∧ (∀ a ∈ l₂, a ≠ k) := by
  rcases List.append_of_mem hmem with ⟨l₁, l₂, rfl⟩
  have h := List.nodup_append.mp hnd
  refine ⟨l₁, l₂, rfl, ?_, ?_⟩
  · intro a ha hak
    exact h.2.2 ha (hak ▸ List.mem_cons_self k l₂)
  · intro a ha hak
    exact (List.nodup_cons.mp h.2.1).1 (hak ▸ ha)

/-- On a list that is strictly sorted by `R`, `find?` returns `k` as soon as
`k` satisfies the predicate and everything `R`-below `k` fails it. -/
theorem find?_of_first {α : Type _} {R : α → α → Prop} {p : α → Bool} {k : α} :
    ∀ {l : List α}, l.Pairwise R → p k = true → k ∈ l →
      (∀ m ∈ l, R m k → p m = false) → l.find? p = some k
  | [], _, _, hmem, _ => absurd hmem (List.not_mem_nil k)
  | a :: l, hl, hk, hmem, hlow => by
    rcases List.pairwise_cons.mp hl with ⟨ha, hl'⟩
    by_cases hpa : p a = true
    · rcases List.mem_cons.mp hmem with rfl | hmem'
      · rw [List.find?_cons_of_pos _ hpa]
      · have := hlow a (List.mem_cons_self a l) (ha k hmem')
        rw [hpa] at this
        cases this
    · have hak : k ≠ a := fun h => hpa (h ▸ hk)
      rw [List.find?_cons_of_neg _ hpa]
      exact find?_of_first hl' hk ((List.mem_cons.mp hmem).resolve_left hak)
        fun m hm => hlow m (List.mem_cons_of_mem _ hm)

/-- On a list strictly sorted by an asymmetric irreflexive `R`, everything
`R`-below a successful `find?` result fails the predicate. -/
theorem find?_first_rev {α : Type _} {R : α → α → Prop} {p : α → Bool} {k : α}
    {l : List α} (hl : l.Pairwise R) (hirr : ∀ a, ¬R a a)
    (hasym : ∀ a b, R a b → R b a → False) (h : l.find? p = some k) :
    ∀ m ∈ l, R m k → p m = false := by
  rcases List.find?_eq_some.mp h with ⟨hpk, l₁, l₂, rfl, hall⟩
  intro m hm hmk
  rcases List.mem_append.mp hm with hm₁ | hm₂
  · have := hall m hm₁
    simpa using this
  · rcases List.mem_cons.mp hm₂ with rfl | hm₂'
    · exact absurd hmk (hirr m)
    · have hk := (List.pairwise_append.mp hl).2.1
      have := (List.pairwise_cons.mp hk).1 m hm₂'
      exact (hasym m k hmk this).elim

/-! ### Characterisation of `add_order` -/

/-- Once the `added` flag is 1, every iteration of the insertion loop is the
identity. -/
theorem addStep_of_added (o : Order) (g : Fin MAX_ORDERS → Order) (i : Fin MAX_ORDERS) :
    addStep o (g, 1) i = (g, 1) := by
  simp [addStep]

/-- If no slot in `l` is inactive, the insertion loop does nothing. -/
theorem foldl_addStep_none (o : Order) {f : Fin MAX_ORDERS → Order} {l : List (Fin MAX_ORDERS)}
    (h : l.find? (fun i => (f i).active == 0) = none) :
    l.foldl (addStep o) (f, 0) = (f, 0) := by
  refine foldl_fix fun a ha => ?_
  have := List.find?_eq_none.mp h a ha
  simp only [addStep]
  simp only [Bool.not_eq_true] at this
  simp [this]

/-- If the first inactive slot of `l` is `k`, the insertion loop writes the
candidate there (with `active` forced to 1) and sets the flag. -/
theorem foldl_addStep_some (o : Order) {f : Fin MAX_ORDERS → Order} {k : Fin MAX_ORDERS} :
    ∀ {l : List (Fin MAX_ORDERS)}, l.find? (fun i => (f i).active == 0) = some k →
      l.foldl (addStep o) (f, 0) =
        (Function.update f k ⟨o.price, o.amount, o.side, o.order_type, o.user_id, 1⟩, 1)
  | [], h => by cases h
  | a :: l, h => by
    by_cases hpa : ((f a).active == 0) = true
    · have hfa : (a :: l).find? (fun i => (f i).active == 0) = some a :=
        List.find?_cons_of_pos _ hpa
      rw [hfa] at h
      injection h with h
      subst h
      rw [List.foldl_cons]
      have hstep : addStep o (f, 0) a =
          (Function.update f a ⟨o.price, o.amount, o.side, o.order_type, o.user_id, 1⟩, 1) := by
        simp [addStep, hpa]
      rw [hstep]
      exact foldl_fix fun b _ => addStep_of_added o _ b
    · have hfa : (a :: l).find? (fun i => (f i).active == 0) =
          l.find? (fun i => (f i).active == 0) :=
        List.find?_cons_of_neg _ hpa
      rw [hfa] at h
      rw [List.foldl_cons]
      have hstep : addStep o (f, 0) a = (f, 0) := by
        simp only [addStep]
        simp only [Bool.not_eq_true] at hpa
        simp [hpa]
      rw [hstep]
      exact foldl_addStep_some o h

/-- `add_order` on a full book: the slots are unchanged and the counter gets
the wrapped increment 0. -/
theorem add_order_of_full {o : Order} {ob : OrderBook} (h : firstFree ob = none) :
    add_order o ob = ⟨ob.orders, add64 ob.order_count 0⟩ := by
  unfold add_order
  rw [foldl_addStep_none o h]
  rfl

/-- `add_order` when the lowest inactive slot is `k`: that slot receives the
candidate with `active` forced to 1, and the counter gets the wrapped
increment 1. -/
theorem add_order_of_free {o : Order} {ob : OrderBook} {k : Fin MAX_ORDERS}
    (h : firstFree ob = some k) :
    add_order o ob =
      ⟨Function.update ob.orders k ⟨o.price, o.amount, o.side, o.order_type, o.user_id, 1⟩,
       add64 ob.order_count 1⟩ := by
  unfold add_order
  rw [foldl_addStep_some o h]
  rfl

/-! ### Characterisation of `cancel_order` -/

/-- An iteration of the cancellation loop at a non-target index is the
identity, whatever the current state. -/
theorem cancelStep_of_ne {order_id user : Nat} {i : Fin MAX_ORDERS}
    (h : (i : Nat) ≠ order_id) (b : OrderBook) : cancelStep order_id user b i = b := by
  simp [cancelStep, h]

/-- `cancel_order` when slot `order_id` exists, is active and is owned by the
caller: that slot is deactivated and the counter gets the wrapped
decrement 1. -/
theorem cancel_order_of_hit {order_id user : Nat} {ob : OrderBook} {k : Fin MAX_ORDERS}
    (hk : (k : Nat) = order_id) (howner : (ob.orders k).user_id = user)
    (hactive : (ob.orders k).active = 1) :
    cancel_order order_id user ob =
      ⟨Function.update ob.orders k
        ⟨(ob.orders k).price, (ob.orders k).amount, (ob.orders k).side,
         (ob.orders k).order_type, (ob.orders k).user_id, 0⟩,
       sub64 ob.order_count 1⟩ := by
  rcases split_of_nodup (List.mem_finRange k) (List.nodup_finRange MAX_ORDERS)
    with ⟨l₁, l₂, hsplit, h₁, h₂⟩
  unfold cancel_order
  rw [hsplit, foldl_single
    (fun a ha s => cancelStep_of_ne (fun hv => (h₁ a ha) (Fin.val_injective (hv.trans hk.symm))) s)
    (fun a ha s => cancelStep_of_ne (fun hv => (h₂ a ha) (Fin.val_injective (hv.trans hk.symm))) s)]
  simp [cancelStep, hk, howner, hactive]

/-- `cancel_order` when no slot is simultaneously the target, caller-owned
and active: the book is returned unchanged. -/
theorem cancel_order_of_miss {order_id user : Nat} {ob : OrderBook}
    (h : ∀ k : Fin MAX_ORDERS, (k : Nat) = order_id →
      (ob.orders k).user_id = user → (ob.orders k).active = 1 → False) :
    cancel_order order_id user ob = ob := by
  refine foldl_fix fun i _ => ?_
  simp only [cancelStep]
  by_cases hi : (i : Nat) = order_id
  · by_cases ho : (ob.orders i).user_id = user
    · by_cases ha : (ob.orders i).active = 1
      · exact absurd ha (fun ha => h i hi ho ha)
      · simp [hi, ho, ha]
    · simp [hi, ho]
  · simp [hi]

/-! ### Characterisation of `match_orders` -/

/-- `commitResult` always reports a match. -/
theorem commitResult_matched (ob : OrderBook) (i j : Fin MAX_ORDERS) :
    (commitResult ob i j).matched = 1 := rfl

/-- Once a pair has been committed, every later iteration of the matching
loop is the identity. -/
theorem matchStep_of_matched {s : OrderBook × MatchResult} (h : s.2.matched = 1)
    (p : Fin MAX_ORDERS × Fin MAX_ORDERS) : matchStep s p = s := by
  simp [matchStep, h]

/-- If no pair of `l` is eligible, the matching loop does nothing. -/
theorem foldl_matchStep_none {ob : OrderBook} {l : List (Fin MAX_ORDERS × Fin MAX_ORDERS)}
    (h : l.find? (fun p => eligible ob p.1 p.2) = none) :
    l.foldl matchStep (ob, defaultMatchResult) = (ob, defaultMatchResult) := by
  refine foldl_fix fun p hp => ?_
  have := List.find?_eq_none.mp h p hp
  simp only [Bool.not_eq_true] at this
  simp [matchStep, this]

/-- If the first eligible pair of `l` is `q`, the matching loop commits
exactly `q` against the incoming book. -/
theorem foldl_matchStep_some {ob : OrderBook} {q : Fin MAX_ORDERS × Fin MAX_ORDERS} :
    ∀ {l : List (Fin MAX_ORDERS × Fin MAX_ORDERS)},
      l.find? (fun p => eligible ob p.1 p.2) = some q →
      l.foldl matchStep (ob, defaultMatchResult) =
        (commitBook ob q.1 q.2, commitResult ob q.1 q.2)
  | [], h => by cases h
  | p :: l, h => by
    by_cases hp : eligible ob p.1 p.2 = true
    · have hfp : (p :: l).find? (fun p => eligible ob p.1 p.2) = some p :=
        List.find?_cons_of_pos _ hp
      rw [hfp] at h
      injection h with h
      subst h
      rw [List.foldl_cons]
      have hstep : matchStep (ob, defaultMatchResult) p =
          (commitBook ob p.1 p.2, commitResult ob p.1 p.2) := by
        simp [matchStep, defaultMatchResult, hp]
      rw [hstep]
      exact foldl_fix fun b _ => matchStep_of_matched (commitResult_matched ob p.1 p.2) b
    · have hfp : (p :: l).find? (fun p => eligible ob p.1 p.2) =
          l.find? (fun p => eligible ob p.1 p.2) :=
        List.find?_cons_of_neg _ hp
      rw [hfp] at h
      rw [List.foldl_cons]
      have hstep : matchStep (ob, defaultMatchResult) p = (ob, defaultMatchResult) := by
        simp only [Bool.not_eq_true] at hp
        simp [matchStep, hp]
      rw [hstep]
      exact foldl_matchStep_some h

/-- `match_orders` with no eligible pair: the book and the all-zero result
are returned unchanged. -/
theorem match_orders_of_none {ob : OrderBook} (h : firstEligible ob = none) :
    match_orders ob = (ob, defaultMatchResult) :=
  foldl_matchStep_none h

/-- `match_orders` when the first eligible pair (in row-major order) is `q`:
exactly that pair is committed. -/
theorem match_orders_of_some {ob : OrderBook} {q : Fin MAX_ORDERS × Fin MAX_ORDERS}
    (h : firstEligible ob = some q) :
    match_orders ob = (commitBook ob q.1 q.2, commitResult ob q.1 q.2) :=
  foldl_matchStep_some h

/-! ### Row-major order of the pair scan -/

theorem pairLex_irrefl (p : Fin MAX_ORDERS × Fin MAX_ORDERS) : ¬pairLex p p := by
  rintro (h | ⟨-, h⟩) <;> exact lt_irrefl _ h

theorem pairLex_asymm (p q : Fin MAX_ORDERS × Fin MAX_ORDERS) :
    pairLex p q → pairLex q p → False := by
  rintro (h₁ | ⟨e₁, h₁⟩) (h₂ | ⟨e₂, h₂⟩)
  · exact lt_irrefl _ (h₁.trans h₂)
  · exact lt_irrefl _ (e₂ ▸ h₁)
  · exact lt_irrefl _ (e₁ ▸ h₂)
  · exact lt_irrefl _ (h₁.trans h₂)

/-- Every slot pair occurs in the scan list. -/
theorem pairList_complete (p : Fin MAX_ORDERS × Fin MAX_ORDERS) : p ∈ pairList := by
  rw [pairList]
  exact List.mem_flatMap.mpr
    ⟨p.1, List.mem_finRange _, List.mem_map.mpr ⟨p.2, List.mem_finRange _, rfl⟩⟩

/-- The scan list is strictly increasing in row-major order. -/
theorem pairList_pairwise : pairList.Pairwise pairLex := by
  rw [pairList, List.pairwise_flatMap]
  constructor
  · intro i _
    rw [List.pairwise_map]
    exact (List.pairwise_lt_finRange _).imp fun h => Or.inr ⟨rfl, h⟩
  · refine (List.pairwise_lt_finRange _).imp ?_
    intro i i' hii x hx y hy
    rcases List.mem_map.mp hx with ⟨a, -, rfl⟩
    rcases List.mem_map.mp hy with ⟨b, -, rfl⟩
    exact Or.inl hii

/-- `firstEligible` returns exactly the row-major-first eligible pair. -/
theorem firstEligible_eq_some_iff {ob : OrderBook} {q : Fin MAX_ORDERS × Fin MAX_ORDERS} :
    firstEligible ob = some q ↔
      eligible ob q.1 q.2 = true ∧ ∀ p, pairLex p q → eligible ob p.1 p.2 = false := by
  constructor
  · intro h
    have h' : pairList.find? (fun p => eligible ob p.1 p.2) = some q := h
    have hq := List.find?_some h'
    refine ⟨hq, fun p hp => ?_⟩
    exact find?_first_rev pairList_pairwise pairLex_irrefl pairLex_asymm h' p
      (pairList_complete p) hp
  · intro ⟨hq, hlow⟩
    exact find?_of_first pairList_pairwise hq (pairList_complete q)
      fun p _ hp => hlow p hp

/-- `firstEligible` fails exactly when no pair is eligible. -/
theorem firstEligible_eq_none_iff {ob : OrderBook} :
    firstEligible ob = none ↔ ∀ i j : Fin MAX_ORDERS, eligible ob i j = false := by
  constructor
  · intro h i j
    have := List.find?_eq_none.mp h (i, j) (pairList_complete (i, j))
    simpa using this
  · intro h
    exact List.find?_eq_none.mpr fun p _ => by simp [h p.1 p.2]

/-! ### Volume aggregation -/

/-- Folding the wrapped accumulation over any slot list computes the `u64`
sum of the amounts of the slots selected by `P`. -/
theorem foldl_volume (P : Fin MAX_ORDERS → Bool) (ob : OrderBook) :
    ∀ (l : List (Fin MAX_ORDERS)) (v : Nat), v < U64 →
      l.foldl (fun v j => if P j then add64 v (ob.orders j).amount else v) v =
        (v + ((l.filter P).map fun j => (ob.orders j).amount).sum) % U64
  | [], v, hv => by
    simpa using (Nat.mod_eq_of_lt hv).symm
  | j :: l, v, hv => by
    by_cases hj : P j = true
    · rw [List.foldl_cons, if_pos hj, foldl_volume P ob l (add64 v (ob.orders j).amount)
        (Nat.mod_lt _ (by decide)), List.filter_cons_of_pos hj]
      simp only [List.map_cons, List.sum_cons, add64, Nat.mod_add_mod]
      rw [Nat.add_assoc]
    · rw [List.foldl_cons, if_neg (by simp [hj]), foldl_volume P ob l v hv,
        List.filter_cons_of_neg (by simp [hj])]

/-- The buy-side inner loop computes the `u64` sum of active buy amounts. -/
theorem level_volume_buy_eq (ob : OrderBook) :
    level_volume_buy ob =
      (((List.finRange MAX_ORDERS).filter
          (fun j => (ob.orders j).side == 0 && (ob.orders j).active == 1)).map
        fun j => (ob.orders j).amount).sum % U64 := by
  have h := foldl_volume (fun j => (ob.orders j).side == 0 && (ob.orders j).active == 1)
    ob (List.finRange MAX_ORDERS) 0 (by decide)
  simpa [level_volume_buy] using h

/-- The sell-side inner loop computes the `u64` sum of active sell amounts. -/
theorem level_volume_sell_eq (ob : OrderBook) :
    level_volume_sell ob =
      (((List.finRange MAX_ORDERS).filter
          (fun j => (ob.orders j).side == 1 && (ob.orders j).active == 1)).map
        fun j => (ob.orders j).amount).sum % U64 := by
  have h := foldl_volume (fun j => (ob.orders j).side == 1 && (ob.orders j).active == 1)
    ob (List.finRange MAX_ORDERS) 0 (by decide)
  simpa [level_volume_sell] using h

/-! ### Structure of a committed book update -/

/-- Committing a pair never touches `order_count`. -/
theorem commitBook_count (ob : OrderBook) (i j : Fin MAX_ORDERS) :
    (commitBook ob i j).order_count = ob.order_count := rfl

/-- Slots other than the two matched ones are untouched by a commit. -/
theorem commitBook_orders_ne {ob : OrderBook} {i j k : Fin MAX_ORDERS}
    (hki : k ≠ i) (hkj : k ≠ j) : (commitBook ob i j).orders k = ob.orders k := by
  simp only [commitBook]
  split <;> split <;>
    simp [Function.update_noteq hki, Function.update_noteq hkj]

/-- The matched buy slot after a commit: its amount is reduced (with `u64`
subtraction) by the match amount, and it is deactivated exactly when the
new amount is 0. -/
theorem commitBook_orders_i (ob : OrderBook) {i j : Fin MAX_ORDERS} (hij : i ≠ j) :
    (commitBook ob i j).orders i =
      (if sub64 (ob.orders i).amount (commitResult ob i j).match_amount == 0 then
        ⟨(ob.orders i).price, sub64 (ob.orders i).amount (commitResult ob i j).match_amount,
         (ob.orders i).side, (ob.orders i).order_type, (ob.orders i).user_id, 0⟩
      else
        ⟨(ob.orders i).price, sub64 (ob.orders i).amount (commitResult ob i j).match_amount,
         (ob.orders i).side, (ob.orders i).order_type, (ob.orders i).user_id,
         (ob.orders i).active⟩) := by
  simp only [commitBook, Function.update_same, Function.update_noteq hij,
    Function.update_noteq (Ne.symm hij)]
  split <;> split <;>
    simp_all [Function.update_same, Function.update_noteq hij, Function.update_noteq (Ne.symm hij)]

/-- The matched sell slot after a commit, symmetrically. -/
theorem commitBook_orders_j (ob : OrderBook) {i j : Fin MAX_ORDERS} (hij : i ≠ j) :
    (commitBook ob i j).orders j =
      (if sub64 (ob.orders j).amount (commitResult ob i j).match_amount == 0 then
        ⟨(ob.orders j).price, sub64 (ob.orders j).amount (commitResult ob i j).match_amount,
         (ob.orders j).side, (ob.orders j).order_type, (ob.orders j).user_id, 0⟩
      else
        ⟨(ob.orders j).price, sub64 (ob.orders j).amount (commitResult ob i j).match_amount,
         (ob.orders j).side, (ob.orders j).order_type, (ob.orders j).user_id,
         (ob.orders j).active⟩) := by
  simp only [commitBook, Function.update_same, Function.update_noteq hij,
    Function.update_noteq (Ne.symm hij)]
  split <;> split <;>
    simp_all [Function.update_same, Function.update_noteq hij, Function.update_noteq (Ne.symm hij)]

/-- A commit can only turn `active` off, never on. -/
theorem commitBook_active_le {ob : OrderBook} {i j : Fin MAX_ORDERS} (hij : i ≠ j)
    (k : Fin MAX_ORDERS) (h : ((commitBook ob i j).orders k).active = 1) :
    (ob.orders k).active = 1 := by
  by_cases hki : k = i
  · subst hki
    rw [commitBook_orders_i _ hij] at h
    revert h
    split <;> intro h
    · cases h
    · exact h
  · by_cases hkj : k = j
    · subst hkj
      rw [commitBook_orders_j _ hij] at h
      revert h
      split <;> intro h
      · cases h
      · exact h
    · rwa [commitBook_orders_ne hki hkj] at h

/-! ### Facts extracted from eligibility -/

/-- The components of the eligibility predicate. -/
theorem eligible_facts {ob : OrderBook} {i j : Fin MAX_ORDERS}
    (h : eligible ob i j = true) :
    (ob.orders i).side = 0 ∧ (ob.orders j).side = 1 ∧ (ob.orders i).active = 1 ∧
      (ob.orders j).active = 1 ∧ (ob.orders i).user_id ≠ (ob.orders j).user_id := by
  simp only [eligible, Bool.and_eq_true, beq_iff_eq, bne_iff_ne] at h
  refine ⟨h.1.1.1.1, h.1.1.1.2, h.1.1.2.1, h.1.1.2.2, ?_⟩
  simpa using h.1.2

/-- An eligible pair consists of two distinct slots. -/
theorem eligible_ne {ob : OrderBook} {i j : Fin MAX_ORDERS}
    (h : eligible ob i j = true) : i ≠ j := by
  rcases eligible_facts h with ⟨hb, hs, -, -, -⟩
  intro e
  rw [e, hs] at hb
  cases hb

/-- No self-trade: a pair whose two orders carry the same owner id is never
eligible, regardless of any other field. -/
theorem eligible_self_trade {ob : OrderBook} (i j : Fin MAX_ORDERS)
    (h : (ob.orders i).user_id = (ob.orders j).user_id) : eligible ob i j = false := by
  simp [eligible, h]

/-- The price-compatibility component: for an eligible limit/limit pair the
buy price dominates the sell price. -/
theorem eligible_limit_price {ob : OrderBook} {i j : Fin MAX_ORDERS}
    (h : eligible ob i j = true) (hbt : (ob.orders i).order_type ≠ 0)
    (hst : (ob.orders j).order_type ≠ 0) :
    (ob.orders j).price ≤ (ob.orders i).price := by
  simp only [eligible, Bool.and_eq_true, beq_iff_eq] at h
  have hp := h.2
  rw [if_neg (by simp [hbt, hst])] at hp
  by_contra hlt
  rw [if_neg (by omega)] at hp
  cases hp

/-! ### `match_orders` never changes the counter -/

/-- A single matching iteration preserves `order_count`. -/
theorem matchStep_count (s : OrderBook × MatchResult) (p : Fin MAX_ORDERS × Fin MAX_ORDERS) :
    (matchStep s p).1.order_count = s.1.order_count := by
  unfold matchStep
  split <;> rfl

/-- The whole matching fold preserves `order_count`. -/
theorem foldl_matchStep_count :
    ∀ (l : List (Fin MAX_ORDERS × Fin MAX_ORDERS)) (s : OrderBook × MatchResult),
      (l.foldl matchStep s).1.order_count = s.1.order_count
  | [], _ => rfl
  | p :: l, s => by
    rw [List.foldl_cons, foldl_matchStep_count l (matchStep s p), matchStep_count]

/-! ### Counting active slots -/

theorem mem_activeSlots {f : Fin MAX_ORDERS → Order} {k : Fin MAX_ORDERS} :
    k ∈ activeSlots f ↔ (f k).active = 1 := by
  simp [activeSlots]

/-- Writing an active order into an inactive slot grows the active count by
exactly one. -/
theorem activeSlots_update_on {f : Fin MAX_ORDERS → Order} {k : Fin MAX_ORDERS} {v : Order}
    (hv : v.active = 1) (hk : (f k).active ≠ 1) :
    (activeSlots (Function.update f k v)).card = (activeSlots f).card + 1 := by
  have hset : activeSlots (Function.update f k v) = insert k (activeSlots f) := by
    ext i
    by_cases hik : i = k
    · subst hik
      simp [mem_activeSlots, Finset.mem_insert, Function.update_same, hv]
    · simp [mem_activeSlots, Finset.mem_insert, Function.update_noteq hik, hik]
  rw [hset, Finset.card_insert_of_not_mem (fun hm => hk (mem_activeSlots.mp hm))]

/-- Deactivating an active slot shrinks the active count by exactly one. -/
theorem activeSlots_update_off {f : Fin MAX_ORDERS → Order} {k : Fin MAX_ORDERS} {v : Order}
    (hv : v.active ≠ 1) (hk : (f k).active = 1) :
    (activeSlots (Function.update f k v)).card = (activeSlots f).card - 1 := by
  have hset : activeSlots (Function.update f k v) = (activeSlots f).erase k := by
    ext i
    by_cases hik : i = k
    · subst hik
      simp [mem_activeSlots, Function.update_same, hv]
    · simp [mem_activeSlots, Finset.mem_erase, Function.update_noteq hik, hik]
  rw [hset, Finset.card_erase_of_mem (mem_activeSlots.mpr hk)]

/-- Pointwise domination of `active` flags bounds the active counts. -/
theorem activeSlots_card_le {f g : Fin MAX_ORDERS → Order}
    (h : ∀ i, (g i).active = 1 → (f i).active = 1) :
    (activeSlots g).card ≤ (activeSlots f).card :=
  Finset.card_le_card fun i hi => mem_activeSlots.mpr (h i (mem_activeSlots.mp hi))

/-! ### Wrapping arithmetic on small operands -/

theorem U64_pos : 0 < U64 := by decide

theorem add64_eq {a b : Nat} (h : a + b < U64) : add64 a b = a + b :=
  Nat.mod_eq_of_lt h

theorem sub64_eq {a b : Nat} (hb : b ≤ a) (ha : a < U64) : sub64 a b = a - b := by
  unfold sub64
  have h : a + U64 - b = a - b + U64 := by omega
  rw [h, Nat.add_mod_right]
  exact Nat.mod_eq_of_lt (by omega)

/-! ### Reachable states of the book -/

/-- Strengthened counter invariant: along any execution of at most
`2^64 - 2` instructions the counter never wraps, dominates the number of
active slots, and is bounded by the number of instructions executed. -/
theorem reachableIn_invariant {n : Nat} {ob : OrderBook} (h : ReachableIn n ob) :
    n + 1 < U64 → activeCount ob ≤ ob.order_count ∧ ob.order_count ≤ n := by
  induction h with
  | init ob h0 hc =>
    intro _
    have hac : activeCount ob = 0 := by
      rw [activeCount, activeSlots, Finset.card_eq_zero, Finset.filter_eq_empty_iff]
      intro i _
      rw [h0 i]
      omega
    omega
  | step_add n o ob hr ih =>
    intro hb
    obtain ⟨ih1, ih2⟩ := ih (by omega)
    cases hff : firstFree ob with
    | none =>
      rw [add_order_of_full hff]
      have hc : add64 ob.order_count 0 = ob.order_count := by
        unfold add64
        rw [Nat.add_zero]
        exact Nat.mod_eq_of_lt (by omega)
      have hac : activeCount ⟨ob.orders, add64 ob.order_count 0⟩ = activeCount ob := rfl
      dsimp only
      rw [hac, hc]
      omega
    | some k =>
      have hk0 : (ob.orders k).active = 0 := by
        have h' : (List.finRange MAX_ORDERS).find? (fun i => (ob.orders i).active == 0) =
            some k := hff
        simpa using List.find?_some h'
      rw [add_order_of_free hff]
      have hcnt : add64 ob.order_count 1 = ob.order_count + 1 := add64_eq (by omega)
      have hact : activeCount ⟨Function.update ob.orders k
          ⟨o.price, o.amount, o.side, o.order_type, o.user_id, 1⟩, add64 ob.order_count 1⟩ =
          activeCount ob + 1 :=
        activeSlots_update_on rfl (by omega)
      dsimp only
      rw [hact, hcnt]
      omega
  | step_match n ob hr ih =>
    intro hb
    obtain ⟨ih1, ih2⟩ := ih (by omega)
    cases hfe : firstEligible ob with
    | none =>
      rw [match_orders_of_none hfe]
      dsimp only
      exact ⟨ih1, by omega⟩
    | some q =>
      rw [match_orders_of_some hfe]
      have helig : eligible ob q.1 q.2 = true := (firstEligible_eq_some_iff.mp hfe).1
      have hcard : activeCount (commitBook ob q.1 q.2) ≤ activeCount ob :=
        activeSlots_card_le (commitBook_active_le (eligible_ne helig))
      dsimp only
      rw [commitBook_count]
      omega
  | step_cancel n order_id user ob hr ih =>
    intro hb
    obtain ⟨ih1, ih2⟩ := ih (by omega)
    by_cases hhit : ∃ k : Fin MAX_ORDERS, (k : Nat) = order_id ∧
        (ob.orders k).user_id = user ∧ (ob.orders k).active = 1
    · obtain ⟨k, hk, ho, ha⟩ := hhit
      rw [cancel_order_of_hit hk ho ha]
      have hpos : 1 ≤ activeCount ob :=
        Finset.card_pos.mpr ⟨k, mem_activeSlots.mpr ha⟩
      have hcnt : sub64 ob.order_count 1 = ob.order_count - 1 :=
        sub64_eq (by omega) (by omega)
      have hact : activeCount ⟨Function.update ob.orders k
          ⟨(ob.orders k).price, (ob.orders k).amount, (ob.orders k).side,
           (ob.orders k).order_type, (ob.orders k).user_id, 0⟩, sub64 ob.order_count 1⟩ =
          activeCount ob - 1 :=
        activeSlots_update_off (by simp) ha
      dsimp only
      rw [hact, hcnt]
      omega
    · push_neg at hhit
      rw [cancel_order_of_miss fun k h1 h2 h3 => hhit k h1 h2 h3]
      exact ⟨ih1, by omega⟩

/-! ### Evolution of the drift scenario -/

/-- Inserting `orderA` into the empty book. -/
theorem addA_initial : add_order orderA initialBook = ⟨L0, 1⟩ := by
  have hf : firstFree initialBook = some 0 := by decide
  exact add_order_of_free hf

/-- Books are equal when their components are. -/
theorem OrderBook.ext' (a b : OrderBook) (h1 : a.orders = b.orders)
    (h2 : a.order_count = b.order_count) : a = b := by
  cases a
  cases b
  cases h1
  cases h2
  rfl

theorem firstFree_Linf (c : Nat) : firstFree ⟨Linf, c⟩ = some 1 := rfl

theorem addB_Linf (c : Nat) : add_order orderB ⟨Linf, c⟩ = ⟨M1, add64 c 1⟩ :=
  add_order_of_free (firstFree_Linf c)

theorem firstFree_M1 (c : Nat) : firstFree ⟨M1, c⟩ = some 2 := rfl

theorem addC_M1 (c : Nat) : add_order orderC ⟨M1, c⟩ = ⟨M2, add64 c 1⟩ :=
  add_order_of_free (firstFree_M1 c)

theorem firstEligible_M2 (c : Nat) : firstEligible ⟨M2, c⟩ = some (1, 2) := rfl

set_option maxRecDepth 2048 in
theorem M2_commit_orders (c : Nat) : (commitBook ⟨M2, c⟩ 1 2).orders = Linf := by
  funext x
  by_cases hx1 : x = 1
  · subst hx1
    rw [commitBook_orders_i _ (by decide : (1 : Fin MAX_ORDERS) ≠ 2)]
    simp only [commitResult]
    decide
  · by_cases hx2 : x = 2
    · subst hx2
      rw [commitBook_orders_j _ (by decide : (1 : Fin MAX_ORDERS) ≠ 2)]
      simp only [commitResult]
      decide
    · rw [commitBook_orders_ne hx1 hx2]
      show M2 x = Linf x
      rw [M2, M1, Function.update_noteq hx2, Function.update_noteq hx1]

theorem commit_M2 (c : Nat) : commitBook ⟨M2, c⟩ 1 2 = ⟨Linf, c⟩ :=
  OrderBook.ext' _ _ (M2_commit_orders c) (commitBook_count _ 1 2)

theorem match_M2 (c : Nat) : (match_orders ⟨M2, c⟩).1 = ⟨Linf, c⟩ := by
  rw [match_orders_of_some (firstEligible_M2 c)]
  exact commit_M2 c

theorem firstFree_L0 (c : Nat) : firstFree ⟨L0, c⟩ = some 1 := rfl

theorem addB_L0 (c : Nat) : add_order orderB ⟨L0, c⟩ = ⟨S1, add64 c 1⟩ :=
  add_order_of_free (firstFree_L0 c)

theorem firstFree_S1 (c : Nat) : firstFree ⟨S1, c⟩ = some 2 := rfl

theorem addC_S1 (c : Nat) : add_order orderC ⟨S1, c⟩ = ⟨S2, add64 c 1⟩ :=
  add_order_of_free (firstFree_S1 c)

theorem firstEligible_S2 (c : Nat) : firstEligible ⟨S2, c⟩ = some (1, 2) := rfl

set_option maxRecDepth 2048 in
theorem S2_commit_orders (c : Nat) : (commitBook ⟨S2, c⟩ 1 2).orders = Linf := by
  funext x
  by_cases hx1 : x = 1
  · subst hx1
    rw [commitBook_orders_i _ (by decide : (1 : Fin MAX_ORDERS) ≠ 2)]
    simp only [commitResult]
    decide
  · by_cases hx2 : x = 2
    · subst hx2
      rw [commitBook_orders_j _ (by decide : (1 : Fin MAX_ORDERS) ≠ 2)]
      simp only [commitResult]
      decide
    · rw [commitBook_orders_ne hx1 hx2]
      show S2 x = Linf x
      rw [S2, S1, Function.update_noteq hx2, Function.update_noteq hx1, Linf,
        Function.update_noteq hx2, Function.update_noteq hx1]

theorem commit_S2 (c : Nat) : commitBook ⟨S2, c⟩ 1 2 = ⟨Linf, c⟩ :=
  OrderBook.ext' _ _ (S2_commit_orders c) (commitBook_count _ 1 2)

theorem match_S2 (c : Nat) : (match_orders ⟨S2, c⟩).1 = ⟨Linf, c⟩ := by
  rw [match_orders_of_some (firstEligible_S2 c)]
  exact commit_S2 c

/-- One block starting from the steady state: slots return to `Linf`, the
counter is incremented twice with wrapping additions. -/
theorem match_block_Linf (c : Nat) :
    (match_orders (add_order orderC (add_order orderB ⟨Linf, c⟩))).1 =
      ⟨Linf, add64 (add64 c 1) 1⟩ := by
  rw [addB_Linf c, addC_M1 (add64 c 1)]
  exact match_M2 (add64 (add64 c 1) 1)

/-- The first block, run right after `orderA` was inserted. -/
theorem match_block_start :
    (match_orders (add_order orderC (add_order orderB ⟨L0, 1⟩))).1 = ⟨Linf, 3⟩ := by
  rw [addB_L0 1, addC_S1 (add64 1 1)]
  have h := match_S2 (add64 (add64 1 1) 1)
  rw [h]
  rfl

/-- The closed form of the state after `k + 1` blocks: the slots are the
steady `Linf` and the counter is `(3 + 2k) mod 2^64`. -/
theorem afterBlocksPair_eq (k : Nat) :
    (afterBlocksPair k).1 = ⟨Linf, (3 + 2 * k) % U64⟩ := by
  induction k with
  | zero =>
    have h0 : (3 + 2 * 0) % U64 = 3 := by decide
    rw [afterBlocksPair, match_block_start, h0]
  | succ k ih =>
    have h : add64 (add64 ((3 + 2 * k) % U64) 1) 1 = (3 + 2 * (k + 1)) % U64 := by
      have hU : U64 = 18446744073709551616 := by decide
      simp only [add64, hU]
      omega
    rw [afterBlocksPair, ih, match_block_Linf ((3 + 2 * k) % U64), h]

/-- Every state of the drift scenario is reachable. -/
theorem afterBlocksPair_reachable (k : Nat) : Reachable (afterBlocksPair k).1 := by
  induction k with
  | zero =>
    rw [afterBlocksPair]
    refine Reachable.step_match _ (Reachable.step_add _ _ (Reachable.step_add _ _ ?_))
    rw [← addA_initial]
    exact Reachable.step_add _ _ (Reachable.init _ (fun _ => rfl) rfl)
  | succ k ih =>
    rw [afterBlocksPair]
    exact Reachable.step_match _ (Reachable.step_add _ _ (Reachable.step_add _ _ ih))

/-! ### The claims -/

/-- C1: for every order book, `match_orders` commits exactly the first pair
`(i, j)` in row-major iteration order (`i` outer, `j` inner) that satisfies
the eligibility predicate (buy side, sell side, both active, distinct
owners, compatible prices); once a pair is committed no later pair in the
same invocation is committed (the whole invocation equals the single commit
of `(i, j)`, and every other slot is untouched); and a pair whose two
orders carry the same owner id is never eligible, regardless of any other
field. -/
theorem C1_match_commits_first_eligible_pair (ob : OrderBook) (i j : Fin MAX_ORDERS) :
    ((ob.orders i).user_id = (ob.orders j).user_id → eligible ob i j = false) ∧
    (eligible ob i j = true → firstEligible ob ≠ none) ∧
    (firstEligible ob = some (i, j) →
      eligible ob i j = true ∧
      (∀ i' j' : Fin MAX_ORDERS, (i' < i ∨ (i' = i ∧ j' < j)) →
        eligible ob i' j' = false) ∧
      match_orders ob = (commitBook ob i j, commitResult ob i j) ∧
      (match_orders ob).2.matched = 1 ∧
      (match_orders ob).2.buy_order_id = (i : Nat) ∧
      (match_orders ob).2.sell_order_id = (j : Nat) ∧
      (∀ k : Fin MAX_ORDERS, k ≠ i → k ≠ j →
        (match_orders ob).1.orders k = ob.orders k)) := by
  refine ⟨eligible_self_trade i j, ?_, ?_⟩
  · intro he hn
    have h := firstEligible_eq_none_iff.mp hn i j
    rw [he] at h
    cases h
  · intro hfe
    obtain ⟨he, hlow⟩ := firstEligible_eq_some_iff.mp hfe
    have heq := match_orders_of_some hfe
    refine ⟨he, fun i' j' hlt => hlow (i', j') hlt, heq, ?_, ?_, ?_, ?_⟩
    · rw [heq]
      rfl
    · rw [heq]
      rfl
    · rw [heq]
      rfl
    · intro k hki hkj
      rw [heq]
      exact commitBook_orders_ne hki hkj

/-- Witness for C1: on `wBook` the first eligible pair in row-major order is
`(0, 1)` and the invocation commits exactly it. -/
theorem C1_witness :
    firstEligible wBook = some (0, 1) ∧
    (match_orders wBook).2.matched = 1 ∧
    (match_orders wBook).2.buy_order_id = 0 ∧
    (match_orders wBook).2.sell_order_id = 1 := by
  have h := (C1_match_commits_first_eligible_pair wBook 0 1).2.2 (by decide)
  exact ⟨by decide, h.2.2.2.1, h.2.2.2.2.1, h.2.2.2.2.2.1⟩

/-- C3: `add_order` writes the candidate (with `active` forced true) into
exactly the lowest-index inactive slot and applies the `u64` increment 1 to
`order_count` when such a slot exists; when every slot is active the book
is returned unchanged, with no error signalled (the operation is a total
function). -/
theorem C3_add_order_first_free_slot (o : Order) (ob : OrderBook)
    (hc : ob.order_count < U64) :
    (∀ k : Fin MAX_ORDERS, (ob.orders k).active = 0 →
      (∀ m : Fin MAX_ORDERS, m < k → (ob.orders m).active ≠ 0) →
      add_order o ob =
        ⟨Function.update ob.orders k ⟨o.price, o.amount, o.side, o.order_type, o.user_id, 1⟩,
         add64 ob.order_count 1⟩) ∧
    ((∀ k : Fin MAX_ORDERS, (ob.orders k).active ≠ 0) → add_order o ob = ob) := by
  constructor
  · intro k hk hlow
    have hf : firstFree ob = some k := by
      refine find?_of_first (List.pairwise_lt_finRange _) ?_ (List.mem_finRange k) ?_
      · simp [hk]
      · intro m _ hmk
        simp [hlow m hmk]
    exact add_order_of_free hf
  · intro hall
    have hf : firstFree ob = none := by
      refine List.find?_eq_none.mpr fun x _ => ?_
      simp [hall x]
    rw [add_order_of_full hf]
    have h0 : add64 ob.order_count 0 = ob.order_count := by
      unfold add64
      rw [Nat.add_zero]
      exact Nat.mod_eq_of_lt hc
    rw [h0]

/-- Witness for C3: inserting into the empty book fills slot 0 and takes the
counter from 0 to 1. -/
theorem C3_witness :
    initialBook.order_count < U64 ∧
    add_order ⟨50, 5, 0, 1, 7, 0⟩ initialBook =
      ⟨Function.update initialBook.orders 0 ⟨50, 5, 0, 1, 7, 1⟩, add64 0 1⟩ := by
  have h := (C3_add_order_first_free_slot ⟨50, 5, 0, 1, 7, 0⟩ initialBook (by decide)).1
    0 (by decide) (fun m hm => (Nat.not_lt_zero _ hm).elim)
  exact ⟨by decide, h⟩

/-- C4: `cancel_order` deactivates slot `k` and applies the `u64` decrement
1 to `order_count` exactly when `k` is the target index, the slot's owner
id equals the supplied identifier and the slot is active; in every other
case (wrong owner, inactive slot, out-of-range index) the book is returned
unchanged, with no error signalled. -/
theorem C4_cancel_order_guarded (order_id user : Nat) (ob : OrderBook) :
    (∀ k : Fin MAX_ORDERS, (k : Nat) = order_id → (ob.orders k).user_id = user →
      (ob.orders k).active = 1 →
      cancel_order order_id user ob =
        ⟨Function.update ob.orders k
          ⟨(ob.orders k).price, (ob.orders k).amount, (ob.orders k).side,
           (ob.orders k).order_type, (ob.orders k).user_id, 0⟩,
         sub64 ob.order_count 1⟩) ∧
    ((∀ k : Fin MAX_ORDERS, ¬((k : Nat) = order_id ∧ (ob.orders k).user_id = user ∧
        (ob.orders k).active = 1)) → cancel_order order_id user ob = ob) :=
  ⟨fun _ hk ho ha => cancel_order_of_hit hk ho ha,
   fun h => cancel_order_of_miss fun k h1 h2 h3 => h k ⟨h1, h2, h3⟩⟩

/-- Witness for C4: the owner cancels their only order; the slot goes
inactive and the counter drops from 1 to 0. -/
theorem C4_witness :
    ((0 : Fin MAX_ORDERS) : Nat) = 0 ∧ (cBook.orders 0).user_id = 7 ∧
    (cBook.orders 0).active = 1 ∧
    (cancel_order 0 7 cBook).order_count = 0 ∧
    ((cancel_order 0 7 cBook).orders 0).active = 0 := by
  have h := (C4_cancel_order_guarded 0 7 cBook).1 0 (by decide) (by decide) (by decide)
  refine ⟨by decide, by decide, by decide, ?_, ?_⟩
  · rw [h]
    decide
  · rw [h]
    decide

/-- C5: `match_orders` returns a book with the same `order_count` as its
input, even when the committed match deactivates one or both matched slots;
only `add_order` and `cancel_order` ever change the counter (the depth
aggregator does not even return a book). -/
theorem C5_match_orders_preserves_count (ob : OrderBook) :
    (match_orders ob).1.order_count = ob.order_count := by
  cases hfe : firstEligible ob with
  | none =>
    rw [match_orders_of_none hfe]
  | some q =>
    rw [match_orders_of_some hfe]
    exact commitBook_count ob q.1 q.2

/-- C6: `get_orderbook_depth` produces 20 entries: indices 0-9 all hold the
`u64` sum of the amounts of active buy slots, indices 10-19 all hold the
`u64` sum of the amounts of active sell slots, and the `priceLevels`
argument has no effect on the output (no bucketing by price occurs). -/
theorem C6_depth_two_sided_totals (ob : OrderBook) (pl pl' : Nat) (k : Fin 20) :
    ((k : Nat) < 10 → get_orderbook_depth ob pl k =
      (((List.finRange MAX_ORDERS).filter fun j =>
          (ob.orders j).side == 0 && (ob.orders j).active == 1).map
        fun j => (ob.orders j).amount).sum % U64) ∧
    (10 ≤ (k : Nat) → get_orderbook_depth ob pl k =
      (((List.finRange MAX_ORDERS).filter fun j =>
          (ob.orders j).side == 1 && (ob.orders j).active == 1).map
        fun j => (ob.orders j).amount).sum % U64) ∧
    get_orderbook_depth ob pl = get_orderbook_depth ob pl' := by
  refine ⟨fun hk => ?_, fun hk => ?_, rfl⟩
  · show (if (k : Nat) < 10 then level_volume_buy ob else level_volume_sell ob) = _
    rw [if_pos hk]
    exact level_volume_buy_eq ob
  · show (if (k : Nat) < 10 then level_volume_buy ob else level_volume_sell ob) = _
    rw [if_neg (by omega)]
    exact level_volume_sell_eq ob

/-- Witness for C6: three active buys with amounts 10, 20, 30 and no sells
give 60 at index 0. -/
theorem C6_witness :
    ((0 : Fin 20) : Nat) < 10 ∧ get_orderbook_depth dBook 7 0 = 60 := by
  have h := (C6_depth_two_sided_totals dBook 7 9 0).1 (by decide)
  refine ⟨by decide, ?_⟩
  rw [h]
  decide

/-- C7: when no pair of the book satisfies the eligibility predicate
(including the empty, all-inactive book), `match_orders` returns
`matched = 0` with every other result field 0 and the book unchanged; this
is a normal returned value, not an error. -/
theorem C7_no_eligible_pair_is_noop (ob : OrderBook)
    (h : ∀ i j : Fin MAX_ORDERS, eligible ob i j = false) :
    (match_orders ob).1 = ob ∧
    (match_orders ob).2.matched = 0 ∧
    (match_orders ob).2.match_price = 0 ∧
    (match_orders ob).2.match_amount = 0 ∧
    (match_orders ob).2.buy_order_id = 0 ∧
    (match_orders ob).2.sell_order_id = 0 := by
  rw [match_orders_of_none (firstEligible_eq_none_iff.mpr h)]
  exact ⟨rfl, rfl, rfl, rfl, rfl, rfl⟩

/-- Witness for C7: the empty book has no eligible pair and matching it is a
no-op. -/
theorem C7_witness :
    (∀ i j : Fin MAX_ORDERS, eligible initialBook i j = false) ∧
    (match_orders initialBook).1 = initialBook ∧
    (match_orders initialBook).2.matched = 0 := by
  have hh : ∀ i j : Fin MAX_ORDERS, eligible initialBook i j = false := fun i j => by
    simp [eligible, initialBook, zeroOrder]
  have h := C7_no_eligible_pair_is_noop initialBook hh
  exact ⟨hh, h.1, h.2.1⟩

/-- C2 (amended): when `match_orders` commits the pair `(i, j)`, the match
price is the sell price if the buy order is market, else the buy price if
the sell order is market, else the wrapped `u64` sum of the two prices
halved (`((buyPrice + sellPrice) mod 2^64) / 2`, which is the integer
midpoint whenever the sum does not overflow); the match amount is the
minimum of the two amounts; both slots' amounts are reduced by the match
amount; and each of the two slots is deactivated exactly when its new
amount is 0 (otherwise it stays active). -/
theorem C2_commit_pricing_and_updates (ob : OrderBook) (i j : Fin MAX_ORDERS)
    (hfe : firstEligible ob = some (i, j))
    (hai : (ob.orders i).amount < U64) (haj : (ob.orders j).amount < U64) :
    (match_orders ob).2.match_price =
      (if (ob.orders i).order_type = 0 then (ob.orders j).price
       else if (ob.orders j).order_type = 0 then (ob.orders i).price
       else ((ob.orders i).price + (ob.orders j).price) % U64 / 2) ∧
    (match_orders ob).2.match_amount = min (ob.orders i).amount (ob.orders j).amount ∧
    ((match_orders ob).1.orders i).amount =
      (ob.orders i).amount - min (ob.orders i).amount (ob.orders j).amount ∧
    ((match_orders ob).1.orders j).amount =
      (ob.orders j).amount - min (ob.orders i).amount (ob.orders j).amount ∧
    (((match_orders ob).1.orders i).amount = 0 → ((match_orders ob).1.orders i).active = 0) ∧
    (((match_orders ob).1.orders i).amount ≠ 0 → ((match_orders ob).1.orders i).active = 1) ∧
    (((match_orders ob).1.orders j).amount = 0 → ((match_orders ob).1.orders j).active = 0) ∧
    (((match_orders ob).1.orders j).amount ≠ 0 → ((match_orders ob).1.orders j).active = 1) := by
  have helig := (firstEligible_eq_some_iff.mp hfe).1
  obtain ⟨hsb, hss, hactb, hacts, huser⟩ := eligible_facts helig
  have hij : i ≠ j := eligible_ne helig
  have heq := match_orders_of_some hfe
  have hm : (commitResult ob i j).match_amount =
      min (ob.orders i).amount (ob.orders j).amount := by
    simp only [commitResult]
    split <;> omega
  have hsub_i : sub64 (ob.orders i).amount (commitResult ob i j).match_amount =
      (ob.orders i).amount - min (ob.orders i).amount (ob.orders j).amount := by
    rw [hm]
    exact sub64_eq (Nat.min_le_left _ _) hai
  have hsub_j : sub64 (ob.orders j).amount (commitResult ob i j).match_amount =
      (ob.orders j).amount - min (ob.orders i).amount (ob.orders j).amount := by
    rw [hm]
    exact sub64_eq (Nat.min_le_right _ _) haj
  have hoi := commitBook_orders_i ob hij
  have hoj := commitBook_orders_j ob hij
  rw [heq]
  dsimp only
  refine ⟨?_, hm, ?_, ?_, ?_, ?_, ?_, ?_⟩
  · show (commitResult ob i j).match_price = _
    simp only [commitResult]
    by_cases hb0 : (ob.orders i).order_type = 0
    · simp [hb0]
    · by_cases hs0 : (ob.orders j).order_type = 0
      · simp [hb0, hs0]
      · simp [hb0, hs0, add64]
  · rw [hoi]
    split <;> simp [hsub_i]
  · rw [hoj]
    split <;> simp [hsub_j]
  · rw [hoi]
    split <;> intro h0
    · rfl
    · rename_i hc
      simp only [beq_iff_eq] at hc
      simp only at h0
      exact absurd h0 hc
  · rw [hoi]
    split <;> intro h0
    · rename_i hc
      simp only [beq_iff_eq] at hc
      simp only at h0
      exact absurd hc h0
    · exact hactb
  · rw [hoj]
    split <;> intro h0
    · rfl
    · rename_i hc
      simp only [beq_iff_eq] at hc
      simp only at h0
      exact absurd h0 hc
  · rw [hoj]
    split <;> intro h0
    · rename_i hc
      simp only [beq_iff_eq] at hc
      simp only at h0
      exact absurd hc h0
    · exact hacts

/-- Counterexample to C2 as frozen: on `cexBook` the committed pair consists
of two limit orders whose prices sum to `2^64`; the wrapped addition makes
the match price 0, not the integer midpoint `2^63`. -/
theorem C2_counterexample :
    (cexBook.orders 0).order_type = 1 ∧ (cexBook.orders 1).order_type = 1 ∧
    (match_orders cexBook).2.matched = 1 ∧
    (match_orders cexBook).2.buy_order_id = 0 ∧
    (match_orders cexBook).2.sell_order_id = 1 ∧
    (match_orders cexBook).2.match_price = 0 ∧
    ((cexBook.orders 0).price + (cexBook.orders 1).price) / 2 = 2 ^ 63 ∧
    (match_orders cexBook).2.match_price ≠
      ((cexBook.orders 0).price + (cexBook.orders 1).price) / 2 := by
  have hfe : firstEligible cexBook = some (0, 1) := by decide
  have heq := match_orders_of_some hfe
  rw [heq]
  refine ⟨by decide, by decide, rfl, ?_, ?_, ?_, by decide, ?_⟩
  · decide
  · decide
  · show (commitResult cexBook 0 1).match_price = 0
    decide
  · show (commitResult cexBook 0 1).match_price ≠ _
    decide

/-- Witness for C2 at the spec's own example: Buy(limit 104) against
Sell(limit 100), both amount 10, match at price 102 for amount 10 and both
slots deactivate. -/
theorem C2_witness :
    firstEligible wBook = some (0, 1) ∧
    (match_orders wBook).2.match_price = 102 ∧
    (match_orders wBook).2.match_amount = 10 ∧
    ((match_orders wBook).1.orders 0).active = 0 ∧
    ((match_orders wBook).1.orders 1).active = 0 := by
  have h := C2_commit_pricing_and_updates wBook 0 1 (by decide) (by decide) (by decide)
  refine ⟨by decide, ?_, ?_, ?_, ?_⟩
  · rw [h.1]
    decide
  · rw [h.2.1]
    decide
  · refine h.2.2.2.2.1 ?_
    rw [h.2.2.1]
    decide
  · refine h.2.2.2.2.2.2.1 ?_
    rw [h.2.2.2.1]
    decide

/-- C9 (amended): along any execution of at most `2^64 - 2` instruction
invocations from an all-inactive book with counter 0, `order_count`
dominates the number of active slots; in particular, whenever
`cancel_order` actually cancels (which requires an active slot owned by
the caller), `order_count ≥ 1` holds beforehand, so the `u64` decrement
does not wrap.  The bound is necessary: the unbounded claim fails, see the
counterexample. -/
theorem C9_bounded_counter_invariant (n : Nat) (ob : OrderBook)
    (h : ReachableIn n ob) (hn : n + 1 < U64) :
    activeCount ob ≤ ob.order_count ∧
    (∀ k : Fin MAX_ORDERS, (ob.orders k).active = 1 → 1 ≤ ob.order_count) := by
  obtain ⟨h1, -⟩ := reachableIn_invariant h hn
  refine ⟨h1, fun k hk => ?_⟩
  have hpos : 1 ≤ activeCount ob := Finset.card_pos.mpr ⟨k, mem_activeSlots.mpr hk⟩
  omega

/-- Witness for C9 (amended) at the empty book. -/
theorem C9_witness :
    ReachableIn 0 initialBook ∧ 0 + 1 < U64 ∧
    activeCount initialBook ≤ initialBook.order_count := by
  have hr : ReachableIn 0 initialBook := ReachableIn.init _ (fun _ => rfl) rfl
  have h := C9_bounded_counter_invariant 0 initialBook hr (by decide)
  exact ⟨hr, by decide, h.1⟩

/-- Counterexample to C9 as frozen: because `order_count` is a wrapping
`u64` counter that Matching never decrements, a (astronomically long but
well-defined) execution of repeated insert-insert-match blocks drives the
counter to `2^64 - 1` while only one slot stays active; one further
insertion wraps the counter to 0 with two active slots, violating
`order_count ≥ number of active slots` at a reachable state. -/
theorem C9_counterexample :
    ¬∀ ob : OrderBook, Reachable ob → activeCount ob ≤ ob.order_count := by
  intro h
  have hreach : Reachable (add_order orderD (afterBlocksPair (2 ^ 63 - 2)).1) :=
    Reachable.step_add _ _ (afterBlocksPair_reachable _)
  have hcnt : (3 + 2 * (2 ^ 63 - 2)) % U64 = U64 - 1 := by decide
  have hbook : (afterBlocksPair (2 ^ 63 - 2)).1 = ⟨Linf, U64 - 1⟩ := by
    rw [afterBlocksPair_eq, hcnt]
  have hadd : add_order orderD ⟨Linf, U64 - 1⟩ =
      ⟨Function.update Linf 1 ⟨0, 1, 0, 1, 4, 1⟩, add64 (U64 - 1) 1⟩ :=
    add_order_of_free (firstFree_Linf (U64 - 1))
  have hz : add64 (U64 - 1) 1 = 0 := by decide
  have hle := h _ hreach
  rw [hbook, hadd, hz] at hle
  have h2 : activeCount ⟨Function.update Linf 1 ⟨0, 1, 0, 1, 4, 1⟩, 0⟩ = 2 := by decide
  rw [h2] at hle
  exact absurd hle (by decide)

/-- C10: for a committed limit-against-limit pair the match price is
computed as `((buyPrice + sellPrice) mod 2^64) / 2` — a wrapping `u64`
addition followed by halving — and that expression equals the integer
`floor((buyPrice + sellPrice) / 2)` exactly when `buyPrice + sellPrice ≤
2^64 - 1`; for larger sums the intermediate addition wraps. -/
theorem C10_limit_price_wrapping_add (ob : OrderBook) (i j : Fin MAX_ORDERS)
    (hfe : firstEligible ob = some (i, j))
    (hbt : (ob.orders i).order_type = 1) (hst : (ob.orders j).order_type = 1) :
    (match_orders ob).2.match_price =
      ((ob.orders i).price + (ob.orders j).price) % U64 / 2 ∧
    (∀ pb ps : Nat, pb < U64 → ps < U64 →
      ((pb + ps) % U64 / 2 = (pb + ps) / 2 ↔ pb + ps ≤ U64 - 1)) := by
  constructor
  · rw [match_orders_of_some hfe]
    show (commitResult ob i j).match_price = _
    simp only [commitResult]
    rw [if_neg (by simp [hbt]), if_neg (by simp [hst])]
    rfl
  · intro pb ps hpb hps
    have hU : U64 = 18446744073709551616 := by decide
    rw [hU] at hpb hps ⊢
    omega

/-- Witness for C10 at the concrete limit/limit book. -/
theorem C10_witness :
    firstEligible wBook = some (0, 1) ∧ (wBook.orders 0).order_type = 1 ∧
    (wBook.orders 1).order_type = 1 ∧
    (match_orders wBook).2.match_price =
      ((wBook.orders 0).price + (wBook.orders 1).price) % U64 / 2 := by
  have h := C10_limit_price_wrapping_add wBook 0 1 (by decide) (by decide) (by decide)
  exact ⟨by decide, by decide, by decide, h.1⟩

end DarkPool
